import Mathlib

/-!
# Verification of numcmp's statistical core (src/main.rs)

Shallow embedding of the Rust program `numcmp`, which compares two numeric
samples via bootstrap resampling.

Modelling conventions:

* `f64` is modelled as `F := Option ℚ`: `none` stands for NaN, `some x` for the
  finite value `x`, with arithmetic performed exactly over `ℚ` (the usual
  floats-as-rationals idealization; the program's inputs are finite reals and
  no claim depends on rounding). NaN propagates through arithmetic and makes
  every ordered comparison false, exactly as IEEE-754 prescribes; infinities
  are not modelled (no claim reaches them).
* Rust `Result<T, Error>` is `Except Error T`.  Rust panics (`assert!`, slice
  index out of bounds, `Option::expect`) are totalized as the distinguished
  error `Error.Panic`, so "the assertion never fails" becomes "the function
  never returns `Error.Panic`".
* `rand::thread_rng` / `gen_range(0..n)` is an injected oracle
  `g : Nat → Nat`; `gen_range` reduces the oracle's value modulo `n`, which
  realizes its contract of returning an index in `[0, n)` (and panics on an
  empty range, as the real `gen_range` does).  Uniformity of the distribution
  is a probabilistic property outside the embedding.
* `Vec<f64>` is `List F`; `usize` and loop counters are `Nat`; the `i32`
  counters of `EstimatorResult` are `Int` (they only ever hold values between
  0 and the iteration count, so two's-complement wrap-around is unreachable).
* `debug_assert!(is_sorted(..))` is compiled out in release builds and is
  modelled as a no-op.
-/

namespace Numcmp

/-- Model of `f64`: `none` is NaN, `some x` a finite value. -/
abbrev F : Type := Option ℚ

/-- `f64` addition: NaN-propagating. -/
def fadd : F → F → F
  | some a, some b => some (a + b)
  | _, _ => none

/-- `f64` subtraction: NaN-propagating. -/
def fsub : F → F → F
  | some a, some b => some (a - b)
  | _, _ => none

/-- `f64` multiplication: NaN-propagating. -/
def fmul : F → F → F
  | some a, some b => some (a * b)
  | _, _ => none

/-- `f64` division: NaN-propagating; a zero divisor yields a non-finite value
(NaN or ±∞ in IEEE-754), modelled as `none`. -/
def fdiv : F → F → F
  | some a, some b => if b = 0 then none else some (a / b)
  | _, _ => none

/-- `f64::floor`; `NaN.floor()` is NaN. -/
def ffloor : F → F
  | some a => some (⌊a⌋ : ℚ)
  | none => none

/-- `f64` `<`: false whenever an operand is NaN. -/
def flt : F → F → Bool
  | some a, some b => decide (a < b)
  | _, _ => false

/-- `f64` `>`: false whenever an operand is NaN. -/
def fgt : F → F → Bool
  | some a, some b => decide (b < a)
  | _, _ => false

/-- `f64` `==`: false whenever an operand is NaN. -/
def feq : F → F → Bool
  | some a, some b => decide (a = b)
  | _, _ => false

/-- `usize as f64` (exact for any reachable length). -/
def fofNat (n : Nat) : F := some (n : ℚ)

/-- `i32 as f64` (exact for any reachable counter value). -/
def fofInt (i : Int) : F := some (i : ℚ)

/-- `f64 as usize`: truncates toward zero, NaN and negative values go to 0.
(The saturation at `usize::MAX` is not modelled: a `Vec` cannot exceed it.) -/
def fToUsize : F → Nat
  | none => 0
  | some a => if a < 0 then 0 else ⌊a⌋.toNat

/-- `f64::partial_cmp`: `none` whenever an operand is NaN. -/
def fcmp : F → F → Option Ordering
  | some a, some b => some (compare a b)
  | _, _ => none

/-- The program's error enum (`Error::Oops`), i.e. the spec's
`InvalidArgument`, plus `Panic`, the embedding's totalization of Rust panics
(`assert!`, index out of bounds, `expect`). -/
inductive Error where
  | Oops : String → Error
  | Panic : String → Error
deriving DecidableEq, Repr

instance {ε α : Type _} [DecidableEq ε] [DecidableEq α] : DecidableEq (Except ε α) := fun x y =>
  match x, y with
  | .ok a, .ok b =>
      if h : a = b then .isTrue (by rw [h]) else .isFalse (by intro hc; cases hc; exact h rfl)
  | .error a, .error b =>
      if h : a = b then .isTrue (by rw [h]) else .isFalse (by intro hc; cases hc; exact h rfl)
  | .ok _, .error _ => .isFalse (by intro hc; cases hc)
  | .error _, .ok _ => .isFalse (by intro hc; cases hc)

/-- Slice indexing `xs[i]`: panics when out of bounds. -/
def indexF (xs : List F) (i : Nat) : Except Error F :=
  if h : i < xs.length then .ok xs[i] else .error (.Panic "index out of bounds")

/-- `.first().expect("vector was checked to be nonempty")`. -/
def firstF (xs : List F) : Except Error F :=
  match xs with
  | [] => .error (.Panic "vector was checked to be nonempty")
  | x :: _ => .ok x

/-- `.last().expect("vector was checked to be nonempty")`. -/
def lastF (xs : List F) : Except Error F :=
  match xs.getLast? with
  | none => .error (.Panic "vector was checked to be nonempty")
  | some x => .ok x

/-- `quantile_index(n, q) = ((n - 1) as f64) * q`. -/
def quantile_index (n : Nat) (q : F) : F :=
  fmul (fofNat (n - 1)) q

/-- `get_quantile(sorted_numbers, q)`, line for line from `src/main.rs`.
The source's `debug_assert!(is_sorted(..))` is release-compiled out and the
out-of-range error message's interpolation of `q`'s value is presentation
only, so the message is a fixed string here. -/
def get_quantile (sorted_numbers : List F) (q : F) : Except Error F :=
  if sorted_numbers.isEmpty then
    .error (.Oops "vector is empty")
  else if flt q (some 0) || fgt q (some 1) then
    .error (.Oops "quantile parameter q is out of range [0,1]")
  else if feq q (some 0) then
    firstF sorted_numbers
  else if feq q (some 1) then
    lastF sorted_numbers
  else
    let qi := quantile_index sorted_numbers.length q
    let qf := ffloor qi
    let i := fToUsize qf
    if feq (fofNat i) qi then
      indexF sorted_numbers i
    else
      let t := fsub qi qf
      if sorted_numbers.length ≥ i + 2 then do
        let x0 ← indexF sorted_numbers i
        let x1 ← indexF sorted_numbers (i + 1)
        .ok (fadd (fmul x0 (fsub (some 1) t)) (fmul x1 t))
      else
        .error (.Panic "assertion failed: sorted_numbers.len() >= (i + 2)")

/-! ## Reduction of `get_quantile` to exact rational arithmetic

On NaN-free inputs (a sample `s.map some` and a parameter `some q` with
`0 ≤ q ≤ 1`), `get_quantile` returns `some` of the piecewise-linear
interpolant of the sorted sample evaluated at the fractional index
`(len - 1) * q`.  `linInterp` is that interpolant; it is proved equal to the
embedded code on every branch, and the functional claims are then settled
against it. -/

/-- The fractional index `(n - 1) * q` at rational level. -/
def qIdx (s : List ℚ) (q : ℚ) : ℚ :=
  ((s.length - 1 : ℕ) : ℚ) * q

/-- Piecewise-linear interpolant of the sample at fractional index `x`:
`s[⌊x⌋] * (1 - fract x) + s[⌊x⌋ + 1] * fract x` (out-of-range reads default
to `0`; they only occur multiplied by `fract x = 0`). -/
def linInterp (s : List ℚ) (x : ℚ) : ℚ :=
  s.getD ⌊x⌋.toNat 0 * (1 - Int.fract x) + s.getD (⌊x⌋.toNat + 1) 0 * Int.fract x

@[simp] theorem fadd_some_some (a b : ℚ) : fadd (some a) (some b) = some (a + b) := rfl

@[simp] theorem fsub_some_some (a b : ℚ) : fsub (some a) (some b) = some (a - b) := rfl

@[simp] theorem fmul_some_some (a b : ℚ) : fmul (some a) (some b) = some (a * b) := rfl

@[simp] theorem ffloor_some (a : ℚ) : ffloor (some a) = some (⌊a⌋ : ℚ) := rfl

@[simp] theorem flt_some_some (a b : ℚ) : flt (some a) (some b) = decide (a < b) := rfl

@[simp] theorem fgt_some_some (a b : ℚ) : fgt (some a) (some b) = decide (b < a) := rfl

@[simp] theorem feq_some_some (a b : ℚ) : feq (some a) (some b) = decide (a = b) := rfl

@[simp] theorem flt_none_left (b : F) : flt none b = false := rfl

@[simp] theorem fgt_none_left (b : F) : fgt none b = false := rfl

@[simp] theorem feq_none_left (b : F) : feq none b = false := rfl

@[simp] theorem feq_some_none (a : ℚ) : feq (some a) none = false := rfl

@[simp] theorem fmul_some_none (a : ℚ) : fmul (some a) none = none := rfl

@[simp] theorem fsub_none_left (b : F) : fsub none b = none := rfl

@[simp] theorem fsub_some_none (a : ℚ) : fsub (some a) none = none := rfl

@[simp] theorem fadd_none_left (b : F) : fadd none b = none := rfl

@[simp] theorem fadd_some_none (a : ℚ) : fadd (some a) none = none := rfl

@[simp] theorem ffloor_none : ffloor none = none := rfl

@[simp] theorem fToUsize_none : fToUsize none = 0 := rfl

@[simp] theorem fToUsize_some (a : ℚ) :
    fToUsize (some a) = if a < 0 then 0 else ⌊a⌋.toNat := rfl

@[simp] theorem fofNat_def (n : Nat) : fofNat n = some (n : ℚ) := rfl

theorem indexF_of_lt (xs : List F) (i : Nat) (h : i < xs.length) :
    indexF xs i = .ok xs[i] := by
  simp [indexF, h]

theorem indexF_map_some (s : List ℚ) (i : Nat) (h : i < s.length) :
    indexF (s.map some) i = .ok (some (s.getD i 0)) := by
  rw [indexF_of_lt _ _ (by simpa using h)]
  simp [List.getD_eq_getElem, h]

theorem firstF_map_some (s : List ℚ) (h : s ≠ []) :
    firstF (s.map some) = .ok (some (s.getD 0 0)) := by
  cases s with
  | nil => exact absurd rfl h
  | cons a t => rfl

theorem lastF_map_some (s : List ℚ) (h : s ≠ []) :
    lastF (s.map some) = .ok (some (s.getD (s.length - 1) 0)) := by
  have hm : (s.map some) ≠ [] := by simpa using h
  rw [lastF, List.getLast?_eq_getLast _ hm, List.getLast_eq_getElem]
  have hl : s.length - 1 < s.length := by
    have := List.length_pos.mpr h
    omega
  simp [List.getD_eq_getElem, hl]

theorem linInterp_natCast (s : List ℚ) (k : Nat) : linInterp s (k : ℚ) = s.getD k 0 := by
  have hf : Int.fract ((k : ℚ)) = 0 := by
    simp
  have hfl : (⌊(k : ℚ)⌋ : ℤ) = (k : ℤ) := by
    simp
  simp [linInterp, hf, hfl]

theorem linInterp_eq_of_natCast (s : List ℚ) (k : Nat) (x : ℚ) (h : ((k : ℕ) : ℚ) = x) :
    linInterp s x = s.getD k 0 := by
  rw [← h, linInterp_natCast]

theorem qIdx_nonneg (s : List ℚ) (q : ℚ) (h0 : 0 ≤ q) : 0 ≤ qIdx s q :=
  mul_nonneg (by positivity) h0

theorem qIdx_le (s : List ℚ) (q : ℚ) (h1 : q ≤ 1) : qIdx s q ≤ ((s.length - 1 : ℕ) : ℚ) :=
  mul_le_of_le_one_right (by positivity) h1

/-- On a NaN-free sample and a parameter `q ∈ [0,1]`, `get_quantile` succeeds
and returns the linear interpolant at the fractional index `(len - 1) * q` —
this single lemma covers all four branches of the source. -/
theorem get_quantile_eval (s : List ℚ) (hne : s ≠ []) (q : ℚ) (h0 : 0 ≤ q) (h1 : q ≤ 1) :
    get_quantile (s.map some) (some q) = .ok (some (linInterp s (qIdx s q))) := by
  have hn : 0 < s.length := List.length_pos.mpr hne
  have hemp : (s.map some).isEmpty = false := by
    simp [List.isEmpty_iff, hne]
  have hnotlt : ¬ q < 0 := not_lt.mpr h0
  have hnotgt : ¬ 1 < q := not_lt.mpr h1
  by_cases hq0 : q = 0
  · subst hq0
    have h01 : ¬ (0 : ℚ) = 1 := by norm_num
    simp only [get_quantile, hemp, Bool.false_eq_true, if_false, flt_some_some, fgt_some_some,
      decide_eq_true_eq, hnotlt, hnotgt, Bool.or_self, feq_some_some, decide_True,
      if_true]
    rw [firstF_map_some s hne]
    have : qIdx s 0 = ((0 : ℕ) : ℚ) := by simp [qIdx]
    rw [this, linInterp_natCast]
  · by_cases hq1 : q = 1
    · subst hq1
      simp only [get_quantile, hemp, Bool.false_eq_true, if_false, flt_some_some, fgt_some_some,
        decide_eq_true_eq, hnotlt, hnotgt, Bool.or_self, feq_some_some,
        decide_eq_true_eq, if_neg (by norm_num : ¬ (1 : ℚ) = 0), if_pos trivial]
      rw [lastF_map_some s hne]
      have : qIdx s 1 = ((s.length - 1 : ℕ) : ℚ) := by simp [qIdx]
      rw [this, linInterp_natCast]
    · have hq0lt : 0 < q := lt_of_le_of_ne h0 (Ne.symm hq0)
      have hq1lt : q < 1 := lt_of_le_of_ne h1 hq1
      have hqi0 : 0 ≤ qIdx s q := qIdx_nonneg s q h0
      have hqile : qIdx s q ≤ ((s.length - 1 : ℕ) : ℚ) := qIdx_le s q h1
      have hfl0 : (0 : ℤ) ≤ ⌊qIdx s q⌋ := Int.floor_nonneg.mpr hqi0
      have hflle : ⌊qIdx s q⌋ ≤ ((s.length : ℤ) - 1) := by
        have := Int.floor_le_floor hqile
        have hc : (⌊((s.length - 1 : ℕ) : ℚ)⌋ : ℤ) = ((s.length - 1 : ℕ) : ℤ) := by
          simp
        rw [hc] at this
        omega
      have hilt : ⌊qIdx s q⌋.toNat < s.length := by omega
      have hcast : ((⌊qIdx s q⌋.toNat : ℕ) : ℚ) = ((⌊qIdx s q⌋ : ℤ) : ℚ) := by
        norm_cast
        omega
      have hqidx : quantile_index s.length (some q) = some (qIdx s q) := by
        simp [quantile_index, qIdx]
      have hnneg : ¬ (((⌊qIdx s q⌋ : ℤ) : ℚ) < 0) := by
        rw [not_lt]
        exact_mod_cast hfl0
      simp only [get_quantile, hemp, Bool.false_eq_true, if_false, flt_some_some, fgt_some_some,
        decide_eq_true_eq, hnotlt, hnotgt, Bool.or_self, feq_some_some,
        decide_eq_true_eq, if_neg hq0, if_neg hq1, List.length_map, hqidx, ffloor_some,
        fToUsize_some, fofNat_def, if_neg hnneg, Int.floor_intCast]
      by_cases hint : ((⌊qIdx s q⌋.toNat : ℕ) : ℚ) = qIdx s q
      · rw [if_pos hint, indexF_map_some s _ hilt,
          linInterp_eq_of_natCast s _ _ hint]
      · rw [if_neg hint]
        have hlt : ((⌊qIdx s q⌋ : ℤ) : ℚ) < qIdx s q := by
          rcases lt_or_eq_of_le (Int.floor_le (qIdx s q)) with h | h
          · exact h
          · exact absurd (by rw [hcast, h]) hint
        have hfllt : ⌊qIdx s q⌋ < ((s.length : ℤ) - 1) := by
          rcases lt_or_eq_of_le hflle with h | h
          · exact h
          · exfalso
            apply hint
            have hqieq : qIdx s q = ((s.length : ℚ) - 1) := by
              have hcast2 : ((⌊qIdx s q⌋ : ℤ) : ℚ) = ((s.length : ℚ) - 1) := by
                rw [h]
                push_cast
                ring
              have hle2 : qIdx s q ≤ ((s.length : ℚ) - 1) := by
                calc qIdx s q ≤ ((s.length - 1 : ℕ) : ℚ) := hqile
                _ = ((s.length : ℚ) - 1) := by push_cast [hn]; ring
              linarith [hlt, hcast2, hle2]
            rw [hcast, h, hqieq]
            push_cast
            ring
        have hge : s.length ≥ ⌊qIdx s q⌋.toNat + 2 := by omega
        have hi1lt : ⌊qIdx s q⌋.toNat + 1 < s.length := by omega
        rw [if_pos hge, indexF_map_some s _ hilt, indexF_map_some s _ hi1lt]
        have hli : linInterp s (qIdx s q) =
            s.getD ⌊qIdx s q⌋.toNat 0 * (1 - (qIdx s q - ((⌊qIdx s q⌋ : ℤ) : ℚ))) +
              s.getD (⌊qIdx s q⌋.toNat + 1) 0 * (qIdx s q - ((⌊qIdx s q⌋ : ℤ) : ℚ)) := by
          simp only [linInterp, Int.fract]
        rw [hli]
        rfl

theorem sorted_getD_mono (s : List ℚ) (hs : List.Sorted (· ≤ ·) s) {i j : Nat}
    (hij : i ≤ j) (hj : j < s.length) : s.getD i 0 ≤ s.getD j 0 := by
  have hi : i < s.length := Nat.lt_of_le_of_lt hij hj
  rw [List.getD_eq_getElem s 0 hi, List.getD_eq_getElem s 0 hj]
  have h := hs.rel_get_of_le (a := ⟨i, hi⟩) (b := ⟨j, hj⟩) hij
  simpa using h

/-- The piecewise-linear interpolant of a sorted sample is monotone in the
fractional index on `[0, len - 1]`. -/
theorem linInterp_mono (s : List ℚ) (hs : List.Sorted (· ≤ ·) s) (x y : ℚ)
    (hx : 0 ≤ x) (hxy : x ≤ y) (hy : y ≤ ((s.length - 1 : ℕ) : ℚ)) :
    linInterp s x ≤ linInterp s y := by
  rcases eq_or_lt_of_le hxy with rfl | hlt
  · exact le_refl _
  have hy0 : 0 ≤ y := le_trans hx hxy
  have hfx0 : (0 : ℤ) ≤ ⌊x⌋ := Int.floor_nonneg.mpr hx
  have hfy0 : (0 : ℤ) ≤ ⌊y⌋ := Int.floor_nonneg.mpr hy0
  have hfxy : ⌊x⌋ ≤ ⌊y⌋ := Int.floor_le_floor hxy
  have hfyle : ⌊y⌋ ≤ ((s.length - 1 : ℕ) : ℤ) := by
    have h := Int.floor_le_floor hy
    simpa using h
  have htx0 : 0 ≤ Int.fract x := Int.fract_nonneg x
  have htx1 : Int.fract x < 1 := Int.fract_lt_one x
  have hty0 : 0 ≤ Int.fract y := Int.fract_nonneg y
  have hty1 : Int.fract y < 1 := Int.fract_lt_one y
  have hfrx : Int.fract x = x - ((⌊x⌋ : ℤ) : ℚ) := rfl
  have hfry : Int.fract y = y - ((⌊y⌋ : ℤ) : ℚ) := rfl
  rcases eq_or_lt_of_le hfxy with heq | hfl
  · have hcq : ((⌊x⌋ : ℤ) : ℚ) = ((⌊y⌋ : ℤ) : ℚ) := by exact_mod_cast heq
    have htxy : Int.fract x ≤ Int.fract y := by
      rw [hfrx, hfry]
      linarith
    have hk1 : ⌊x⌋ + 1 ≤ ((s.length - 1 : ℕ) : ℤ) := by
      by_contra hcon
      push_neg at hcon
      have h1 : ((s.length - 1 : ℕ) : ℤ) ≤ ⌊x⌋ := by omega
      have h2 : (((s.length - 1 : ℕ) : ℤ) : ℚ) ≤ ((⌊x⌋ : ℤ) : ℚ) := by exact_mod_cast h1
      have h3 : ((⌊x⌋ : ℤ) : ℚ) ≤ x := Int.floor_le x
      have h4 : (((s.length - 1 : ℕ) : ℤ) : ℚ) = ((s.length - 1 : ℕ) : ℚ) := by
        push_cast
        ring
      have h5 : y ≤ x := by
        rw [h4] at h2
        linarith [hy]
      linarith
    have hkxlt : ⌊x⌋.toNat + 1 < s.length := by omega
    have hab : s.getD ⌊x⌋.toNat 0 ≤ s.getD (⌊x⌋.toNat + 1) 0 :=
      sorted_getD_mono s hs (Nat.le_succ _) hkxlt
    have hky : ⌊y⌋.toNat = ⌊x⌋.toNat := by omega
    rw [linInterp, linInterp, hky]
    nlinarith [mul_nonneg (sub_nonneg.2 htxy) (sub_nonneg.2 hab)]
  · have hkylt : ⌊y⌋.toNat < s.length := by omega
    have hkx1le : ⌊x⌋.toNat + 1 ≤ ⌊y⌋.toNat := by omega
    have hkx1lt : ⌊x⌋.toNat + 1 < s.length := by omega
    have hab : s.getD ⌊x⌋.toNat 0 ≤ s.getD (⌊x⌋.toNat + 1) 0 :=
      sorted_getD_mono s hs (Nat.le_succ _) hkx1lt
    have hmid : s.getD (⌊x⌋.toNat + 1) 0 ≤ s.getD ⌊y⌋.toNat 0 :=
      sorted_getD_mono s hs hkx1le hkylt
    have hstep1 : linInterp s x ≤ s.getD (⌊x⌋.toNat + 1) 0 := by
      rw [linInterp]
      nlinarith [mul_nonneg (sub_nonneg.2 hab) (by linarith : (0 : ℚ) ≤ 1 - Int.fract x)]
    have hstep3 : s.getD ⌊y⌋.toNat 0 ≤ linInterp s y := by
      by_cases hklast : ⌊y⌋.toNat + 1 < s.length
      · have hcd : s.getD ⌊y⌋.toNat 0 ≤ s.getD (⌊y⌋.toNat + 1) 0 :=
          sorted_getD_mono s hs (Nat.le_succ _) hklast
        rw [linInterp]
        nlinarith [mul_nonneg hty0 (sub_nonneg.2 hcd)]
      · have h1 : ((s.length - 1 : ℕ) : ℤ) ≤ ⌊y⌋ := by omega
        have h4 : (((s.length - 1 : ℕ) : ℤ) : ℚ) = ((s.length - 1 : ℕ) : ℚ) := by
          push_cast
          ring
        have h3 : ((s.length - 1 : ℕ) : ℚ) ≤ y := by
          rw [← h4]
          exact le_trans (by exact_mod_cast h1) (Int.floor_le y)
        have hyeq : y = ((s.length - 1 : ℕ) : ℚ) := le_antisymm hy h3
        have hkyeq : ⌊y⌋.toNat = s.length - 1 := by omega
        rw [hkyeq, hyeq, linInterp_natCast]
    exact le_trans hstep1 (le_trans hmid hstep3)

@[simp] theorem ok_bind {α β : Type} (a : α) (f : α → Except Error β) :
    (Except.ok a >>= f) = f a := rfl

/-- The fractional-index floor always leaves room for the right neighbour:
when the index is not an exact integer, `⌊idx⌋ + 1` is a valid position. -/
theorem floor_qIdx_succ_lt (s : List ℚ) (hne : s ≠ []) (q : ℚ) (h1 : q ≤ 1)
    (h0 : 0 ≤ q) (hnint : ((⌊qIdx s q⌋.toNat : ℕ) : ℚ) ≠ qIdx s q) :
    ⌊qIdx s q⌋.toNat + 1 < s.length := by
  have hn : 0 < s.length := List.length_pos.mpr hne
  have hqi0 : 0 ≤ qIdx s q := qIdx_nonneg s q h0
  have hqile : qIdx s q ≤ ((s.length - 1 : ℕ) : ℚ) := qIdx_le s q h1
  have hfl0 : (0 : ℤ) ≤ ⌊qIdx s q⌋ := Int.floor_nonneg.mpr hqi0
  have hflle : ⌊qIdx s q⌋ ≤ ((s.length - 1 : ℕ) : ℤ) := by
    have h := Int.floor_le_floor hqile
    simpa using h
  have hcast : ((⌊qIdx s q⌋.toNat : ℕ) : ℚ) = ((⌊qIdx s q⌋ : ℤ) : ℚ) := by
    norm_cast
    omega
  rcases lt_or_eq_of_le hflle with h | h
  · omega
  · exfalso
    apply hnint
    have h4 : (((s.length - 1 : ℕ) : ℤ) : ℚ) = ((s.length - 1 : ℕ) : ℚ) := by
      push_cast
      ring
    have hge : ((s.length - 1 : ℕ) : ℚ) ≤ qIdx s q := by
      rw [← h4, ← h]
      exact Int.floor_le (qIdx s q)
    have heq : qIdx s q = ((s.length - 1 : ℕ) : ℚ) := le_antisymm hqile hge
    rw [hcast, h, h4, heq]

/-!  ## The claims about `get_quantile` -/

/-- C1: for every non-empty sorted sample `s`, `get_quantile(s, 0.0)` returns
`Ok` of exactly the first element of `s`, and `get_quantile(s, 1.0)` returns
`Ok` of exactly the last element, with no interpolation arithmetic performed
(the element itself is returned, bit-exact). -/
theorem quantile_boundary_exact (s : List ℚ) (_hs : List.Sorted (· ≤ ·) s) (hne : s ≠ []) :
    get_quantile (s.map some) (some 0) = .ok (some (s.head hne)) ∧
    get_quantile (s.map some) (some 1) = .ok (some (s.getLast hne)) := by
  have hn : 0 < s.length := List.length_pos.mpr hne
  constructor
  · rw [get_quantile_eval s hne 0 le_rfl zero_le_one]
    have h2 : qIdx s 0 = ((0 : ℕ) : ℚ) := by simp [qIdx]
    rw [h2, linInterp_natCast]
    rw [List.getD_eq_getElem s 0 hn, List.head_eq_getElem s hne]
  · rw [get_quantile_eval s hne 1 zero_le_one le_rfl]
    have h2 : qIdx s 1 = ((s.length - 1 : ℕ) : ℚ) := by simp [qIdx]
    rw [h2, linInterp_natCast]
    have hl : s.length - 1 < s.length := by omega
    rw [List.getLast_eq_getElem, List.getD_eq_getElem s 0 hl]

/-- C1 witness at `s = [3, 7]`. -/
theorem quantile_boundary_exact_witness :
    get_quantile [some 3, some 7] (some 0) = .ok (some 3) ∧
    get_quantile [some 3, some 7] (some 1) = .ok (some 7) :=
  quantile_boundary_exact [3, 7] (by norm_num) (by simp)

/-- C2: for `0 < q < 1` on a non-empty sorted sample, with fractional index
`idx = (len - 1) * q`: if `idx` is an exact integer `i` the result is `s[i]`
exactly, otherwise it is `s[i] * (1 - t) + s[i+1] * t` with `i = ⌊idx⌋`,
`t = idx - i`; in particular `quantile([1,2], 0.5) = 1.5` and
`quantile([1,2,3], 0.5) = 2`. -/
theorem quantile_interpolation (s : List ℚ) (_hs : List.Sorted (· ≤ ·) s) (hne : s ≠ [])
    (q : ℚ) (h0 : 0 < q) (h1 : q < 1) :
    (∀ i : ℕ, qIdx s q = (i : ℚ) →
       get_quantile (s.map some) (some q) = .ok (some (s.getD i 0))) ∧
    ((∀ i : ℕ, qIdx s q ≠ (i : ℚ)) →
       get_quantile (s.map some) (some q) =
         .ok (some (s.getD ⌊qIdx s q⌋.toNat 0 * (1 - (qIdx s q - ((⌊qIdx s q⌋ : ℤ) : ℚ))) +
           s.getD (⌊qIdx s q⌋.toNat + 1) 0 * (qIdx s q - ((⌊qIdx s q⌋ : ℤ) : ℚ))))) ∧
    get_quantile [some 1, some 2] (some (1 / 2)) = .ok (some (3 / 2)) ∧
    get_quantile [some 1, some 2, some 3] (some (1 / 2)) = .ok (some 2) := by
  refine ⟨?_, ?_, by with_unfolding_all decide, by with_unfolding_all decide⟩
  · intro i hi
    rw [get_quantile_eval s hne q (le_of_lt h0) (le_of_lt h1),
      linInterp_eq_of_natCast s i _ hi.symm]
  · intro hni
    rw [get_quantile_eval s hne q (le_of_lt h0) (le_of_lt h1)]
    rfl

/-- C2 witness at `s = [1, 2]`, `q = 1/2` (fractional index `1/2`, not an
integer, hence the interpolation branch). -/
theorem quantile_interpolation_witness :
    get_quantile [some 1, some 2] (some (1 / 2)) = .ok (some (3 / 2)) :=
  (quantile_interpolation [1, 2] (by norm_num) (by simp) (1 / 2)
    (by norm_num) (by norm_num)).2.2.1

/-- C3 (amended): for a fixed non-empty sorted sample and `q1 < q2` in
`[0, 1]`, the quantile at `q1` is at most the quantile at `q2` under exact
(real-number) evaluation of the interpolation arithmetic.  The claim as
stated — monotonicity under the f64 arithmetic actually performed — is false:
see `quantile_monotone_counterexample` below, where IEEE round-to-nearest in
`x0 * (1 - t) + x1 * t` makes the result strictly decrease across two adjacent
quantile parameters. -/
theorem quantile_monotone (s : List ℚ) (hs : List.Sorted (· ≤ ·) s) (hne : s ≠ [])
    (q1 q2 : ℚ) (h0 : 0 ≤ q1) (h12 : q1 < q2) (h2 : q2 ≤ 1) :
    ∃ v1 v2 : ℚ,
      get_quantile (s.map some) (some q1) = .ok (some v1) ∧
      get_quantile (s.map some) (some q2) = .ok (some v2) ∧ v1 ≤ v2 := by
  refine ⟨_, _,
    get_quantile_eval s hne q1 h0 (le_of_lt (lt_of_lt_of_le h12 h2)),
    get_quantile_eval s hne q2 (le_trans h0 (le_of_lt h12)) h2, ?_⟩
  apply linInterp_mono s hs _ _ (qIdx_nonneg s q1 h0) ?_ (qIdx_le s q2 h2)
  exact mul_le_mul_of_nonneg_left (le_of_lt h12) (by positivity)

/-- C3 witness at `s = [1, 2, 3]`, `q1 = 1/4`, `q2 = 3/4`. -/
theorem quantile_monotone_witness :
    ∃ v1 v2 : ℚ,
      get_quantile [some 1, some 2, some 3] (some (1 / 4)) = .ok (some v1) ∧
      get_quantile [some 1, some 2, some 3] (some (3 / 4)) = .ok (some v2) ∧ v1 ≤ v2 :=
  quantile_monotone [1, 2, 3] (by norm_num) (by simp) (1 / 4) (3 / 4)
    (by norm_num) (by norm_num) (by norm_num)

/-! ### IEEE-rounded refinement of the interpolation arithmetic

The exact-rational model above idealizes `+`, `-`, `*` on `f64`.  That is
harmless for the branch, error, NaN and index claims, but monotonicity in `q`
is sensitive to rounding, so the interpolation path is refined here with
round-to-nearest-even at every arithmetic step.  `roundDouble` rounds an
exact rational to the nearest double (53-bit significand, ties to even),
covering the normal range (subnormals and overflow are far from every value
involved and are not modelled; `floor`, casts and comparisons on doubles are
exact in IEEE-754 and keep their exact model). -/

/-- One binary-stripping step of the exponent extraction: divide out `2 ^ k`
when it fits, recording `k` in the exponent accumulator. -/
def binStep (k : Nat) : ℚ × ℤ → ℚ × ℤ
  | (x, e) => if ((2 ^ k : ℕ) : ℚ) ≤ x then (x / ((2 ^ k : ℕ) : ℚ), e + (k : ℤ)) else (x, e)

/-- `⌊log₂ x⌋` for positive `x`: shift into `[1, 2^512)` and strip binary
powers greedily.  Valid for `x ∈ [2^(-200), 2^312)` — two hundred binades on
either side of 1, a range that comfortably contains every value the
interpolation arithmetic can meet for the samples considered here (the
extreme exponents near the subnormal and overflow thresholds are not
modelled). -/
def floorLog2 (x : ℚ) : ℤ :=
  (binStep 1 (binStep 2 (binStep 4 (binStep 8 (binStep 16 (binStep 32 (binStep 64
    (binStep 128 (binStep 256
      (x * ((2 ^ 200 : ℕ) : ℚ), 0)))))))))).2 - 200

/-- `2 ^ k` over `ℚ` for an integer `k`. -/
def pow2 : ℤ → ℚ
  | .ofNat k => ((2 ^ k : ℕ) : ℚ)
  | .negSucc k => 1 / ((2 ^ (k + 1) : ℕ) : ℚ)

/-- Round a rational to the nearest integer, ties to even. -/
def roundNE (s : ℚ) : ℤ :=
  let n := ⌊s⌋
  let r := s - (n : ℚ)
  if r < 1 / 2 then n
  else if 1 / 2 < r then n + 1
  else if n % 2 = 0 then n else n + 1

/-- Round an exact rational to the nearest IEEE-754 double (round to nearest,
ties to even; normal range). -/
def roundDouble (x : ℚ) : ℚ :=
  if x = 0 then 0
  else if 0 < x then
    ((roundNE (x * pow2 (52 - floorLog2 x)) : ℤ) : ℚ) * pow2 (floorLog2 x - 52)
  else
    -(((roundNE (-x * pow2 (52 - floorLog2 (-x))) : ℤ) : ℚ) * pow2 (floorLog2 (-x) - 52))

/-- `f64` addition with IEEE rounding. -/
def fadd64 : F → F → F
  | some a, some b => some (roundDouble (a + b))
  | _, _ => none

/-- `f64` subtraction with IEEE rounding. -/
def fsub64 : F → F → F
  | some a, some b => some (roundDouble (a - b))
  | _, _ => none

/-- `f64` multiplication with IEEE rounding. -/
def fmul64 : F → F → F
  | some a, some b => some (roundDouble (a * b))
  | _, _ => none

/-- `quantile_index` with the rounded multiply (the `(n - 1) as f64` cast is
exact for any representable length). -/
def quantile_index64 (n : Nat) (q : F) : F :=
  fmul64 (fofNat (n - 1)) q

/-- `get_quantile` with every `f64` arithmetic operation rounded — the same
source lines 73–114 as `get_quantile`, refined to IEEE semantics on the
interpolation path (`floor`, the `usize` cast and all comparisons are exact
on doubles and unchanged). -/
def get_quantile64 (sorted_numbers : List F) (q : F) : Except Error F :=
  if sorted_numbers.isEmpty then
    .error (.Oops "vector is empty")
  else if flt q (some 0) || fgt q (some 1) then
    .error (.Oops "quantile parameter q is out of range [0,1]")
  else if feq q (some 0) then
    firstF sorted_numbers
  else if feq q (some 1) then
    lastF sorted_numbers
  else
    let qi := quantile_index64 sorted_numbers.length q
    let qf := ffloor qi
    let i := fToUsize qf
    if feq (fofNat i) qi then
      indexF sorted_numbers i
    else
      let t := fsub64 qi qf
      if sorted_numbers.length ≥ i + 2 then do
        let x0 ← indexF sorted_numbers i
        let x1 ← indexF sorted_numbers (i + 1)
        .ok (fadd64 (fmul64 x0 (fsub64 (some 1) t)) (fmul64 x1 t))
      else
        .error (.Panic "assertion failed: sorted_numbers.len() >= (i + 2)")

/-- Counterexample observation helpers: whether a result is `Ok`, and the
value it carries (`none` for an error, so a NaN-false comparison also rejects
errors). -/
def isOkE : Except Error F → Bool
  | .ok _ => true
  | .error _ => false

def okValue : Except Error F → F
  | .ok v => v
  | .error _ => none

set_option exponentiation.threshold 5000
set_option maxRecDepth 100000
set_option maxHeartbeats 4000000

/-- C3 counterexample: under the f64 arithmetic actually performed the
quantile estimator is not monotone in `q`.  For the sorted two-element sample
`s = [41.720325267279584, 41.72032526728975]` and the adjacent doubles
`q1 = 0.8551383417761215 < q2 = 0.8551383417761216` (both strictly inside
`(0, 1)`, all four values written below as the exact rationals those doubles
denote), both calls return `Ok`, yet the value at `q2`
(`41.720325267288274`) is strictly below the value at `q1`
(`41.72032526728828`): the `f64` comparison of the two results comes out
strictly decreasing, refuting `quantile(s, q1) ≤ quantile(s, q2)`. -/
theorem quantile_monotone_counterexample :
    ((7702401434746329 : ℚ) / 9007199254740992 <
      (3851200717373165 : ℚ) / 4503599627370496) ∧
    (0 ≤ (7702401434746329 : ℚ) / 9007199254740992) ∧
    ((3851200717373165 : ℚ) / 4503599627370496 ≤ 1) ∧
    ((5871613791484257 : ℚ) / 140737488355328 ≤
      (733951723935711 : ℚ) / 17592186044416) ∧
    isOkE (get_quantile64
        [some ((5871613791484257 : ℚ) / 140737488355328),
         some ((733951723935711 : ℚ) / 17592186044416)]
        (some ((7702401434746329 : ℚ) / 9007199254740992))) = true ∧
    isOkE (get_quantile64
        [some ((5871613791484257 : ℚ) / 140737488355328),
         some ((733951723935711 : ℚ) / 17592186044416)]
        (some ((3851200717373165 : ℚ) / 4503599627370496))) = true ∧
    flt
      (okValue (get_quantile64
        [some ((5871613791484257 : ℚ) / 140737488355328),
         some ((733951723935711 : ℚ) / 17592186044416)]
        (some ((3851200717373165 : ℚ) / 4503599627370496))))
      (okValue (get_quantile64
        [some ((5871613791484257 : ℚ) / 140737488355328),
         some ((733951723935711 : ℚ) / 17592186044416)]
        (some ((7702401434746329 : ℚ) / 9007199254740992)))) = true := by
  with_unfolding_all decide

set_option exponentiation.threshold 256
set_option maxRecDepth 512
set_option maxHeartbeats 200000

/-- C4: `get_quantile` fails with the `InvalidArgument`-style error
(`Error::Oops`) whenever the sample is empty or `q < 0` or `q > 1`. -/
theorem quantile_domain_validation :
    (∀ q : F, ∃ m, get_quantile [] q = .error (.Oops m)) ∧
    (∀ (s : List F) (q : ℚ), q < 0 ∨ 1 < q →
      ∃ m, get_quantile s (some q) = .error (.Oops m)) := by
  constructor
  · intro q
    exact ⟨_, rfl⟩
  · intro s q hq
    by_cases hemp : s.isEmpty
    · exact ⟨"vector is empty", by simp [get_quantile, hemp]⟩
    · refine ⟨"quantile parameter q is out of range [0,1]", ?_⟩
      have hcond : (flt (some q) (some 0) || fgt (some q) (some 1)) = true := by
        rcases hq with h | h <;> simp [h]
      rw [get_quantile.eq_def, if_neg (by simpa using hemp), if_pos hcond]

/-- C4 witness: `quantile(s, -0.1)`, `quantile(s, 1.1)` and
`quantile([], 0.5)` all fail with the `InvalidArgument`-style error. -/
theorem quantile_domain_validation_witness :
    (∃ m, get_quantile [] (some (1 / 2)) = .error (.Oops m)) ∧
    (∃ m, get_quantile [some 1] (some (-(1 / 10))) = .error (.Oops m)) ∧
    (∃ m, get_quantile [some 1] (some (11 / 10)) = .error (.Oops m)) :=
  ⟨quantile_domain_validation.1 (some (1 / 2)),
    quantile_domain_validation.2 [some 1] (-(1 / 10)) (Or.inl (by norm_num)),
    quantile_domain_validation.2 [some 1] (11 / 10) (Or.inr (by norm_num))⟩

/-- C7: on the interpolation path (`0 < q < 1`, non-integer fractional index)
the neighbour index `⌊idx⌋ + 1` is always in bounds — the source's
`assert!(len >= i + 2)` never fires, and `get_quantile` always succeeds; for a
one-element sample the result is the element itself, via the exact-integer
branch, never interpolation. -/
theorem quantile_interpolation_index_safe (s : List ℚ) (hs : List.Sorted (· ≤ ·) s)
    (hne : s ≠ []) (q : ℚ) (h0 : 0 < q) (h1 : q < 1) :
    (∃ v : ℚ, get_quantile (s.map some) (some q) = .ok (some v)) ∧
    (((⌊qIdx s q⌋.toNat : ℕ) : ℚ) ≠ qIdx s q → ⌊qIdx s q⌋.toNat + 1 < s.length) ∧
    (∀ v : ℚ, s = [v] → get_quantile (s.map some) (some q) = .ok (some v)) := by
  refine ⟨⟨_, get_quantile_eval s hne q (le_of_lt h0) (le_of_lt h1)⟩, ?_, ?_⟩
  · intro hnint
    exact floor_qIdx_succ_lt s hne q (le_of_lt h1) (le_of_lt h0) hnint
  · intro v hv
    subst hv
    have h := get_quantile_eval [v] (by simp) q (le_of_lt h0) (le_of_lt h1)
    have h2 : qIdx [v] q = ((0 : ℕ) : ℚ) := by simp [qIdx]
    rw [h2, linInterp_natCast] at h
    simpa using h

/-- C7 witness at `s = [1, 2, 3]`, `q = 1/3` (fractional index `2/3`). -/
theorem quantile_interpolation_index_safe_witness :
    (∃ v : ℚ, get_quantile [some 1, some 2, some 3] (some (1 / 3)) = .ok (some v)) ∧
    (((⌊qIdx [1, 2, 3] (1 / 3)⌋.toNat : ℕ) : ℚ) ≠ qIdx [1, 2, 3] (1 / 3) →
      ⌊qIdx [1, 2, 3] (1 / 3)⌋.toNat + 1 < ([1, 2, 3] : List ℚ).length) ∧
    (∀ v : ℚ, ([1, 2, 3] : List ℚ) = [v] →
      get_quantile [some 1, some 2, some 3] (some (1 / 3)) = .ok (some v)) :=
  quantile_interpolation_index_safe [1, 2, 3] (by norm_num) (by simp) (1 / 3)
    (by norm_num) (by norm_num)

/-- C8: for a sample holding exactly one element `v`, every `q ∈ [0, 1]`
yields exactly `v`. -/
theorem quantile_singleton (v : ℚ) (q : ℚ) (h0 : 0 ≤ q) (h1 : q ≤ 1) :
    get_quantile [some v] (some q) = .ok (some v) := by
  have h := get_quantile_eval [v] (by simp) q h0 h1
  have h2 : qIdx [v] q = ((0 : ℕ) : ℚ) := by simp [qIdx]
  rw [h2, linInterp_natCast] at h
  simpa using h

/-- C8 witness at `v = 5`, `q = 1/3`. -/
theorem quantile_singleton_witness :
    get_quantile [some 5] (some (1 / 3)) = .ok (some 5) :=
  quantile_singleton 5 (1 / 3) (by norm_num) (by norm_num)

/-- C10: the range check `q < 0.0 || q > 1.0` does not reject NaN, so for any
sorted sample with at least two elements `get_quantile(s, NaN)` returns
`Ok(NaN)` instead of an `InvalidArgument` error: the NaN index floors to NaN,
casts to index 0, fails the exact-integer test and the interpolation formula
propagates NaN. -/
theorem quantile_nan_accepted (s : List ℚ) (_hs : List.Sorted (· ≤ ·) s)
    (h2 : 2 ≤ s.length) :
    get_quantile (s.map some) none = .ok none := by
  have hne : s ≠ [] := by
    intro h
    rw [h] at h2
    simp at h2
  have hemp : (s.map some).isEmpty = false := by simp [List.isEmpty_iff, hne]
  have h0lt : 0 < s.length := by omega
  have h1lt : 1 < s.length := by omega
  have hge : (s.map some).length ≥ fToUsize (ffloor (quantile_index (s.map some).length none)) + 2 := by
    simp only [quantile_index, fofNat_def, fmul_some_none, ffloor_none, fToUsize_none,
      List.length_map]
    omega
  simp only [get_quantile, hemp, Bool.false_eq_true, if_false, flt_none_left, fgt_none_left,
    Bool.or_self, feq_none_left, quantile_index, fofNat_def, List.length_map, fmul_some_none,
    ffloor_none, fToUsize_none, feq_some_none, if_false]
  rw [if_pos (by simpa using hge)]
  rw [indexF_map_some s 0 h0lt, indexF_map_some s 1 h1lt]
  simp only [ok_bind, fsub_none_left, fsub_some_none, fmul_some_none, fadd_none_left]

/-- C10 witness at `s = [1, 2]`. -/
theorem quantile_nan_accepted_witness :
    get_quantile [some 1, some 2] none = .ok none :=
  quantile_nan_accepted [1, 2] (by norm_num) (by norm_num)

/-! ## The simulation engine (`simulate` in src/main.rs)

The bootstrap loop draws `target.len()` uniform indices into `baseline` per
iteration, sorts the replicate, evaluates every estimator on it, and updates
per-estimator counters.  The thread-local RNG is the injected oracle
`G : Nat → Nat → Nat` giving the raw random value for (iteration, draw);
`gen_range(0..n)` maps it into range with `% n` and panics on an empty
range. -/

/-- `Estimator`: a named scalar function over a sample. -/
structure Estimator where
  name : String
  func : List F → Except Error F

/-- `EstimatorResult`: aggregate outcome for one estimator. -/
structure EstimatorResult where
  name : String
  full_baseline_estimator : F
  target_estimator : F
  sim_count : Int
  target_lt_sim_count : Int
  target_gt_sim_count : Int
deriving DecidableEq, Repr

/-- `rng.gen_range(0..n)`: an in-range index from the oracle; panics on an
empty range exactly as `rand`'s `gen_range` does. -/
def gen_range (g : Nat → Nat) (k : Nat) (n : Nat) : Except Error Nat :=
  if n = 0 then .error (.Panic "cannot sample an empty range")
  else .ok (g k % n)

/-- The inner draw loop: `for _ in 0..count { resampling_vec.push(baseline[rng.gen_range(0..baseline.len())]) }`,
starting at draw position `j` of the current iteration's oracle. -/
def drawLoop (baseline : List F) (g : Nat → Nat) : Nat → Nat → Except Error (List F)
  | _, 0 => .ok []
  | j, c + 1 => do
      let item ← gen_range g j baseline.length
      let x ← indexF baseline item
      let rest ← drawLoop baseline g (j + 1) c
      .ok (x :: rest)

/-- `sort_by(|a, b| a.partial_cmp(b).unwrap())`: sorts ascending; with at
least two elements the comparator visits every adjacent pair, so any NaN
present makes the `unwrap` panic; an empty or singleton vector is returned
unchanged without comparisons. -/
def allSome : List F → Option (List ℚ)
  | [] => some []
  | none :: _ => none
  | some x :: rest => (allSome rest).map (fun qs => x :: qs)

def sortF (xs : List F) : Except Error (List F) :=
  if xs.length ≤ 1 then .ok xs
  else
    match allSome xs with
    | some qs => .ok ((qs.insertionSort (· ≤ ·)).map some)
    | none => .error (.Panic "partial_cmp returned None in sort_by")

/-- One iteration's bootstrap replicate: `size` draws from `baseline` with
replacement, then sorted (the loop body at lines 171–177 of src/main.rs). -/
def mkReplicate (baseline : List F) (size : Nat) (g : Nat → Nat) : Except Error (List F) := do
  let raw ← drawLoop baseline g 0 size
  sortF raw

/-- The per-estimator update of one iteration: `sim_count += 1`, then compare
the target's statistic with the simulated value via `partial_cmp(..).expect(..)`. -/
def updateResult (simVal : F) (r : EstimatorResult) : Except Error EstimatorResult :=
  let r1 := { r with sim_count := r.sim_count + 1 }
  match fcmp r1.target_estimator simVal with
  | none => .error (.Panic "estimator should not be NaN")
  | some Ordering.lt => .ok { r1 with target_lt_sim_count := r1.target_lt_sim_count + 1 }
  | some Ordering.gt => .ok { r1 with target_gt_sim_count := r1.target_gt_sim_count + 1 }
  | some Ordering.eq => .ok r1

/-- The `for (est, res) in results.iter_mut()` pass over one replicate. -/
def stepResults (replicate : List F) :
    List (Estimator × EstimatorResult) → Except Error (List (Estimator × EstimatorResult))
  | [] => .ok []
  | (est, r) :: rest => do
      let simVal ← est.func replicate
      let r2 ← updateResult simVal r
      let rest2 ← stepResults replicate rest
      .ok ((est, r2) :: rest2)

/-- Initialization: one result per estimator, with the baseline and target
statistics computed once on the full samples and all counters zero. -/
def initResults (baseline target : List F) :
    List Estimator → Except Error (List (Estimator × EstimatorResult))
  | [] => .ok []
  | est :: rest => do
      let b ← est.func baseline
      let t ← est.func target
      let tail ← initResults baseline target rest
      .ok ((est, ⟨est.name, b, t, 0, 0, 0⟩) :: tail)

/-- The simulation loop: `remaining` iterations left, `iter` the index of the
current one (feeding the RNG oracle). -/
def simLoop (baseline : List F) (size : Nat) (G : Nat → Nat → Nat) :
    Nat → Nat → List (Estimator × EstimatorResult) →
      Except Error (List (Estimator × EstimatorResult))
  | _, 0, results => .ok results
  | iter, remaining + 1, results => do
      let rep ← mkReplicate baseline size (G iter)
      let results2 ← stepResults rep results
      simLoop baseline size G (iter + 1) remaining results2

/-- `simulate(iterations, baseline, target, estimators)` with the RNG oracle
`G`.  A negative `i32` iteration count makes Rust's `0..iterations` loop run
zero times, so the count is a `Nat` here. -/
def simulate (iterations : Nat) (baseline target : List F) (estimators : List Estimator)
    (G : Nat → Nat → Nat) : Except Error (List EstimatorResult) := do
  let init ← initResults baseline target estimators
  let final ← simLoop baseline target.length G 0 iterations init
  .ok (final.map (fun p => p.2))

/-! ## The reporting step (`main`, lines 254–268) -/

/-- One line of the `=== Comparison ===` report, as the data it prints:
`(name, baseline statistic, target statistic, ratio)`.  Both branches of the
source's conditional are embedded verbatim — each computes
`target_gt_sim_count / sim_count`. -/
def comparisonLine (result : EstimatorResult) : String × F × F × F :=
  if fgt result.target_estimator result.full_baseline_estimator then
    (result.name, result.full_baseline_estimator, result.target_estimator,
      fdiv (fofInt result.target_gt_sim_count) (fofInt result.sim_count))
  else
    (result.name, result.full_baseline_estimator, result.target_estimator,
      fdiv (fofInt result.target_gt_sim_count) (fofInt result.sim_count))

/-- C9: the comparison-reporting conditional on
`target_estimator > full_baseline_estimator` has identical bodies — the
printed line is the same function of the `EstimatorResult`, with ratio
`target_gt_sim_count / sim_count`, whichever branch is taken. -/
theorem comparison_report_branch_free (r : EstimatorResult) :
    comparisonLine r =
      (r.name, r.full_baseline_estimator, r.target_estimator,
        fdiv (fofInt r.target_gt_sim_count) (fofInt r.sim_count)) := by
  rw [comparisonLine]
  split <;> rfl

@[simp] theorem error_bind {α β : Type} (e : Error) (f : α → Except Error β) :
    (Except.error e >>= f : Except Error β) = .error e := rfl

/-- Counter invariant carried through the simulation loop: after `c` counted
iterations the tallies sum to at most `c` and are non-negative. -/
def Inv (c : Int) (r : EstimatorResult) : Prop :=
  r.sim_count = c ∧ r.target_gt_sim_count + r.target_lt_sim_count ≤ c ∧
    0 ≤ r.target_gt_sim_count ∧ 0 ≤ r.target_lt_sim_count

theorem updateResult_inv {c : Int} {v : F} {r r2 : EstimatorResult}
    (h : updateResult v r = .ok r2) (hr : Inv c r) : Inv (c + 1) r2 := by
  obtain ⟨h1, h2, h3, h4⟩ := hr
  simp only [updateResult] at h
  split at h
  · cases h
  · cases h
    refine ⟨by simpa using h1, ?_, ?_, ?_⟩ <;> simp <;> omega
  · cases h
    refine ⟨by simpa using h1, ?_, ?_, ?_⟩ <;> simp <;> omega
  · cases h
    refine ⟨by simpa using h1, ?_, ?_, ?_⟩ <;> simp <;> omega

theorem stepResults_inv (rep : List F) (c : Int) :
    ∀ (rs rs2 : List (Estimator × EstimatorResult)),
      stepResults rep rs = .ok rs2 →
      (∀ p ∈ rs, Inv c p.2) → ∀ p ∈ rs2, Inv (c + 1) p.2 := by
  intro rs
  induction rs with
  | nil =>
      intro rs2 h _
      cases h
      intro p hp
      cases hp
  | cons hd tl ih =>
      intro rs2 h hall
      obtain ⟨est, r⟩ := hd
      rw [stepResults] at h
      cases hf : est.func rep with
      | error e => rw [hf] at h; cases h
      | ok v =>
        rw [hf, ok_bind] at h
        cases hu : updateResult v r with
        | error e => rw [hu] at h; cases h
        | ok r2 =>
          rw [hu, ok_bind] at h
          cases hrest : stepResults rep tl with
          | error e => rw [hrest] at h; cases h
          | ok rest2 =>
            rw [hrest, ok_bind] at h
            cases h
            intro p hp
            rcases List.mem_cons.mp hp with hp | hp
            · subst hp
              exact updateResult_inv hu (hall (est, r) (List.mem_cons_self (est, r) tl))
            · exact ih rest2 hrest (fun q hq => hall q (List.mem_cons_of_mem _ hq)) p hp

theorem simLoop_inv (baseline : List F) (size : Nat) (G : Nat → Nat → Nat) :
    ∀ (remaining iter : Nat) (c : Int) (rs rs2 : List (Estimator × EstimatorResult)),
      simLoop baseline size G iter remaining rs = .ok rs2 →
      (∀ p ∈ rs, Inv c p.2) → ∀ p ∈ rs2, Inv (c + remaining) p.2 := by
  intro remaining
  induction remaining with
  | zero =>
      intro iter c rs rs2 h hall
      cases h
      simpa using hall
  | succ m ih =>
      intro iter c rs rs2 h hall
      rw [simLoop] at h
      cases hrep : mkReplicate baseline size (G iter) with
      | error e => rw [hrep] at h; cases h
      | ok rep =>
        rw [hrep, ok_bind] at h
        cases hstep : stepResults rep rs with
        | error e => rw [hstep] at h; cases h
        | ok rs3 =>
          rw [hstep, ok_bind] at h
          have h2 := ih (iter + 1) (c + 1) rs3 rs2 h
            (stepResults_inv rep c rs rs3 hstep hall)
          intro p hp
          have h3 := h2 p hp
          have : c + 1 + (m : Int) = c + ((m : Nat) + 1 : Nat) := by push_cast; ring
          rwa [this] at h3

theorem initResults_inv (baseline target : List F) :
    ∀ (ests : List Estimator) (rs : List (Estimator × EstimatorResult)),
      initResults baseline target ests = .ok rs → ∀ p ∈ rs, Inv 0 p.2 := by
  intro ests
  induction ests with
  | nil =>
      intro rs h p hp
      cases h
      cases hp
  | cons est tl ih =>
      intro rs h p hp
      rw [initResults] at h
      cases hb : est.func baseline with
      | error e => rw [hb] at h; cases h
      | ok b =>
        rw [hb, ok_bind] at h
        cases ht : est.func target with
        | error e => rw [ht] at h; cases h
        | ok t =>
          rw [ht, ok_bind] at h
          cases htl : initResults baseline target tl with
          | error e => rw [htl] at h; cases h
          | ok tail =>
            rw [htl, ok_bind] at h
            cases h
            rcases List.mem_cons.mp hp with hp | hp
            · subst hp
              exact ⟨rfl, by simp, le_refl 0, le_refl 0⟩
            · exact ih tail htl p hp

/-- C5: after `simulate(N, …)` succeeds, every result has `sim_count = N`,
`target_gt_sim_count + target_lt_sim_count ≤ N`, and both counters
non-negative (the remainder of the `N` iterations are exact ties). -/
theorem simulate_count_conservation (N : Nat) (baseline target : List F)
    (estimators : List Estimator) (G : Nat → Nat → Nat) (out : List EstimatorResult)
    (h : simulate N baseline target estimators G = .ok out) :
    ∀ r ∈ out, r.sim_count = (N : Int) ∧
      r.target_gt_sim_count + r.target_lt_sim_count ≤ (N : Int) ∧
      0 ≤ r.target_gt_sim_count ∧ 0 ≤ r.target_lt_sim_count := by
  rw [simulate] at h
  cases hinit : initResults baseline target estimators with
  | error e => rw [hinit] at h; cases h
  | ok init =>
    rw [hinit, ok_bind] at h
    cases hloop : simLoop baseline target.length G 0 N init with
    | error e => rw [hloop] at h; cases h
    | ok final =>
      rw [hloop, ok_bind] at h
      cases h
      intro r hr
      obtain ⟨p, hp, hpr⟩ := List.mem_map.mp hr
      have hinv := simLoop_inv baseline target.length G N 0 0 init final hloop
        (initResults_inv baseline target estimators init hinit) p hp
      rw [hpr] at hinv
      obtain ⟨h1, h2, h3, h4⟩ := hinv
      refine ⟨by simpa using h1, by simpa using h2, h3, h4⟩

/-- C5 witness: two iterations with a single `min` estimator on singleton
samples; the returned counters are `sim_count = 2`, tallies `0`. -/
theorem simulate_count_conservation_witness :
    (⟨"min", some 1, some 1, 2, 0, 0⟩ : EstimatorResult).sim_count = ((2 : Nat) : Int) ∧
      (⟨"min", some 1, some 1, 2, 0, 0⟩ : EstimatorResult).target_gt_sim_count +
        (⟨"min", some 1, some 1, 2, 0, 0⟩ : EstimatorResult).target_lt_sim_count ≤ ((2 : Nat) : Int) ∧
      0 ≤ (⟨"min", some 1, some 1, 2, 0, 0⟩ : EstimatorResult).target_gt_sim_count ∧
      0 ≤ (⟨"min", some 1, some 1, 2, 0, 0⟩ : EstimatorResult).target_lt_sim_count :=
  simulate_count_conservation 2 [some 1] [some 1]
    [⟨"min", fun xs => get_quantile xs (some 0)⟩] (fun _ _ => 0)
    [⟨"min", some 1, some 1, 2, 0, 0⟩] (by with_unfolding_all decide)
    ⟨"min", some 1, some 1, 2, 0, 0⟩ (List.mem_singleton.mpr rfl)

theorem drawLoop_map_some (b : List ℚ) (hb : b ≠ []) (g : Nat → Nat) :
    ∀ (c j : Nat), ∃ raws : List ℚ,
      drawLoop (b.map some) g j c = .ok (raws.map some) ∧
      raws.length = c ∧ ∀ x ∈ raws, x ∈ b := by
  intro c
  induction c with
  | zero =>
      intro j
      exact ⟨[], rfl, rfl, by intro x hx; cases hx⟩
  | succ m ih =>
      intro j
      obtain ⟨raws, hdr, hlen, hmem⟩ := ih (j + 1)
      have hn : b.length ≠ 0 := by
        simpa using fun h => hb (List.length_eq_zero.mp h)
      have hidx : g j % b.length < b.length :=
        Nat.mod_lt _ (Nat.pos_of_ne_zero hn)
      refine ⟨b[g j % b.length] :: raws, ?_, by simp [hlen], ?_⟩
      · rw [drawLoop, gen_range]
        rw [List.length_map, if_neg hn, ok_bind]
        rw [indexF_of_lt _ _ (by simpa using hidx), ok_bind, hdr, ok_bind]
        simp [List.getElem_map]
      · intro x hx
        rcases List.mem_cons.mp hx with hx | hx
        · subst hx
          exact List.getElem_mem hidx
        · exact hmem x hx

theorem allSome_map_some (qs : List ℚ) : allSome (qs.map some) = some qs := by
  induction qs with
  | nil => rfl
  | cons a t ih => simp [allSome, ih]

theorem sortF_map_some (qs : List ℚ) :
    ∃ qs2 : List ℚ, sortF (qs.map some) = .ok (qs2.map some) ∧
      qs2.length = qs.length ∧ (∀ x ∈ qs2, x ∈ qs) ∧ List.Sorted (· ≤ ·) qs2 := by
  by_cases hlen : (qs.map some).length ≤ 1
  · refine ⟨qs, by rw [sortF, if_pos hlen], rfl, fun x hx => hx, ?_⟩
    rw [List.length_map] at hlen
    match qs, hlen with
    | [], _ => exact List.sorted_nil
    | [a], _ => exact List.sorted_singleton a
  · refine ⟨qs.insertionSort (· ≤ ·), ?_, ?_, ?_, ?_⟩
    · rw [sortF, if_neg hlen, allSome_map_some]
    · exact List.length_insertionSort _ _
    · intro x hx
      exact (List.mem_insertionSort _).mp hx
    · exact List.sorted_insertionSort _ _

/-- C6: every bootstrap replicate has exactly `size` elements (`size` being
`target.len()` at the call site), every element is drawn from `baseline` by an
in-range random index (with replacement), and the replicate is sorted
ascending before it is handed to any estimator. -/
theorem replicate_spec (b : List ℚ) (hb : b ≠ []) (size : Nat) (g : Nat → Nat) :
    ∃ qs : List ℚ, mkReplicate (b.map some) size g = .ok (qs.map some) ∧
      qs.length = size ∧ (∀ x ∈ qs, x ∈ b) ∧ List.Sorted (· ≤ ·) qs := by
  obtain ⟨raws, hdr, hlen, hmem⟩ := drawLoop_map_some b hb g size 0
  obtain ⟨qs2, hsort, hlen2, hmem2, hsorted⟩ := sortF_map_some raws
  refine ⟨qs2, ?_, by omega, fun x hx => hmem x (hmem2 x hx), hsorted⟩
  rw [mkReplicate, hdr, ok_bind, hsort]

/-- C6 witness: replicates of size 3 drawn from baseline `[2, 1]` with the
identity oracle. -/
theorem replicate_spec_witness :
    ∃ qs : List ℚ, mkReplicate (([2, 1] : List ℚ).map some) 3 (fun k => k) = .ok (qs.map some) ∧
      qs.length = 3 ∧ (∀ x ∈ qs, x ∈ ([2, 1] : List ℚ)) ∧ List.Sorted (· ≤ ·) qs :=
  replicate_spec [2, 1] (by simp) 3 (fun k => k)

end Numcmp
